import Mathlib

/-!
Verification development for the dark-web crawl orchestrator
(`app/services/crawler_service.py`, `app/api/v1/endpoints/crawler.py`,
`app/models/schemas.py`).

The Python code is shallowly embedded: discovery artifacts are modelled as
lists of CSV rows (each row a `List String` of fields, i.e. the view after
CSV parsing), decoding attempts as `Option`-valued fields per encoding, and
fallible code as `Except`.  Machine details below the abstraction used by
the code (actual byte-level CSV quoting, the file system, network I/O) are
outside the model; everything the code computes on the parsed data is
translated operation by operation.
-/

namespace Chhaya

/-- `CrawlStatus` from `app/models/schemas.py`. -/
inductive CrawlStatus where
  | pending
  | inProgress
  | completed
  | failed
deriving DecidableEq, Repr

/-- `OnionLink` from `app/models/schemas.py`:
`url`, optional `title`, optional `engine`, `status` defaulting to
`"discovered"`.  `none` models Python `None`. -/
structure OnionLink where
  url : String
  title : Option String
  engine : Option String
  status : String := "discovered"
deriving DecidableEq, Repr

/-- `CrawledPage` from `app/models/schemas.py` (fields used by the claims). -/
structure CrawledPage where
  url : String
  title : Option String
  textContent : String
  images : List String
  filePath : Option String
  status : String := "crawled"
deriving DecidableEq, Repr

/-- `CrawlJob` from `app/models/schemas.py`.  Timestamps are abstract `Nat`
ticks. -/
structure CrawlJob where
  id : String
  query : String
  status : CrawlStatus
  createdAt : Nat
  updatedAt : Nat
  totalLinks : Nat := 0
  crawledLinks : Nat := 0
  failedLinks : Nat := 0
  pages : List CrawledPage := []
  errorMessage : Option String := none
deriving DecidableEq, Repr

/-! ### The `'.onion' in s` test

Python's `in` on strings is substring containment.  We model it with an
executable contiguous-substring test on the character lists. -/

/-- Leading-segment match on character lists (substring search helper). -/
def startMatch : List Char → List Char → Bool
  | [], _ => true
  | _ :: _, [] => false
  | a :: as, b :: bs => a = b && startMatch as bs

/-- Contiguous-occurrence test: `needle` occurs somewhere inside `hay`. -/
def containsSeq (needle : List Char) : List Char → Bool
  | [] => startMatch needle []
  | c :: cs => startMatch needle (c :: cs) || containsSeq needle cs

/-- `'.onion' in s` (substring containment), the onion-suffix marker test
used throughout `_extract_onion_links`. -/
def hasOnion (s : String) : Bool := containsSeq ".onion".data s.data

/-! ### DictReader row access

`csv.DictReader` zips the header row with each data row: fields missing
from a short row map to `None` (`restval`), extra fields beyond the header
are dropped into the rest key and are invisible to `row.get('link')`.
With duplicate header names the later column wins (dict overwrite). -/

/-- Result of `row[key]` under a `DictReader` built from `header`:
`none` if `key` is not a header field at all; `some none` if the key is a
header field but the row is too short (Python `None`); `some (some v)`
otherwise. -/
def rowVal (header row : List String) (key : String) : Option (Option String) :=
  (header.zip (row.map some ++ List.replicate header.length none)).foldl
    (fun acc p => if p.1 = key then some p.2 else acc) none

/-- `row.get(key, '')`: the dict default `''` applies only when `key` is not
a header field; a header field missing from the row still yields `None`. -/
def fieldOr (header row : List String) (key : String) : Option String :=
  match rowVal header row key with
  | none => some ""
  | some v => v

/-- Errors that `_extract_onion_links` can raise past its
`except UnicodeDecodeError` handler: `lines[0]` on an empty file
(IndexError) and `'.onion' in None` (TypeError). -/
inductive ExtractErr where
  | indexError
  | typeError
deriving DecidableEq, Repr

/-- The `OnionLink(url=row['link'], title=row.get('name',''),
engine=row.get('engine',''))` constructor call. -/
def mkLinkFrom (header row : List String) (l : String) : OnionLink :=
  { url := l, title := fieldOr header row "name", engine := fieldOr header row "engine" }

/-- The row loop of `_extract_onion_links`: `DictReader` skips blank rows;
each remaining row is kept iff `'.onion' in row.get('link','')`; a `None`
link field makes the membership test raise. -/
def extractRawRows (header : List String) (acc : List OnionLink) :
    List (List String) → Except ExtractErr (List OnionLink)
  | [] => .ok acc
  | r :: rs =>
    if r.isEmpty then extractRawRows header acc rs
    else
      match fieldOr header r "link" with
      | none => .error .typeError
      | some l =>
        if hasOnion l then extractRawRows header (acc ++ [mkLinkFrom header r l]) rs
        else extractRawRows header acc rs

/-- `csv.DictReader(lines)`: the first line (blank or not) becomes the
header, the rest are data rows. -/
def runDictReader (lines : List (List String)) : Except ExtractErr (List OnionLink) :=
  match lines with
  | [] => .ok []
  | header :: rows => extractRawRows header [] rows

/-- The fallback header `"engine,name,link"` injected by
`_extract_onion_links`. -/
def headerRow : List String := ["engine", "name", "link"]

/-- `lines[0].strip().split(',')[-1]`: the last field of the first line
(`''.split(',')` is `['']`, so a blank line yields `""`). -/
def lastFieldD (r : List String) : String := r.getLastD ""

/-- `_extract_onion_links` on the decoded lines, before deduplication:
`lines[0]` raises IndexError on an empty file; if the first line's last
field contains `'.onion'` the canonical header is injected; then the
`DictReader` loop runs. -/
def extractRawFromLines (lines : List (List String)) : Except ExtractErr (List OnionLink) :=
  match lines with
  | [] => .error .indexError
  | first :: rest =>
    if hasOnion (lastFieldD first) then runDictReader (headerRow :: first :: rest)
    else runDictReader (first :: rest)

/-! ### Deduplication, `list({link.url: link for link in links}.values())`

Python dict comprehension: keys appear in first-occurrence order, and a
later entry for the same key overwrites the earlier one (last wins). -/

/-- The last link in `ls` whose url is `u` (the dict's stored value). -/
def lastWithUrl (u : String) (ls : List OnionLink) : Option OnionLink :=
  (ls.filter (fun l => l.url = u)).getLast?

/-- Key order of a Python dict built by insertion: first occurrences. -/
def firstOccs : List String → List String
  | [] => []
  | u :: us => u :: (firstOccs us).filter (fun v => v ≠ u)

/-- `list({link.url: link for link in links}.values())`. -/
def dedupLastWins (ls : List OnionLink) : List OnionLink :=
  (firstOccs (ls.map (fun l => l.url))).filterMap (fun u => lastWithUrl u ls)

/-- `_extract_onion_links` applied to already-decoded lines (raw extraction
followed by the dict-based deduplication). -/
def extractFromLines (lines : List (List String)) : Except ExtractErr (List OnionLink) :=
  (extractRawFromLines lines).map dedupLastWins

/-- A discovery artifact as seen through the candidate encodings
`['utf-8', 'windows-1252']`: for each encoding, either the decoded lines
(as parsed CSV rows) or `none` when that encoding raises
`UnicodeDecodeError`. -/
structure Artifact where
  utf8Lines : Option (List (List String))
  win1252Lines : Option (List (List String))
deriving DecidableEq, Repr

/-- The encoding loop: try utf-8 first, then windows-1252; the first
encoding that decodes wins and the loop breaks. -/
def decodeArtifact (a : Artifact) : Option (List (List String)) :=
  match a.utf8Lines with
  | some ls => some ls
  | none => a.win1252Lines

/-- `_extract_onion_links` on an artifact.  When no encoding decodes the
file, every attempt is swallowed by `except UnicodeDecodeError`, the loop
ends, and the function falls through to deduplicate the still-empty `links`
list — it returns `[]` successfully rather than raising. -/
def extractOnionLinks (a : Artifact) : Except ExtractErr (List OnionLink) :=
  match decodeArtifact a with
  | none => .ok (dedupLastWins [])
  | some lines => extractFromLines lines

/-! ## Properties of the deduplication -/

theorem mem_firstOccs {v : String} : ∀ {us : List String}, v ∈ firstOccs us ↔ v ∈ us := by
  intro us
  induction us with
  | nil => simp [firstOccs]
  | cons u us ih =>
    simp only [firstOccs, List.mem_cons, List.mem_filter, decide_eq_true_eq]
    constructor
    · rintro (rfl | ⟨hv, _⟩)
      · exact Or.inl rfl
      · exact Or.inr (ih.mp hv)
    · rintro (rfl | hv)
      · exact Or.inl rfl
      · by_cases hvu : v = u
        · exact Or.inl hvu
        · exact Or.inr ⟨ih.mpr hv, hvu⟩

theorem nodup_firstOccs : ∀ us : List String, (firstOccs us).Nodup := by
  intro us
  induction us with
  | nil => simp [firstOccs]
  | cons u us ih =>
    refine List.nodup_cons.mpr ⟨?_, ih.filter _⟩
    intro hmem
    have hne := (List.mem_filter.mp hmem).2
    simp at hne

theorem lastWithUrl_url {u : String} {ls : List OnionLink} {l : OnionLink}
    (h : lastWithUrl u ls = some l) : l.url = u := by
  have hm : l ∈ ls.filter (fun x => x.url = u) := List.mem_of_mem_getLast? h
  simpa using (List.mem_filter.mp hm).2

theorem lastWithUrl_eq_none {u : String} {ls : List OnionLink} :
    lastWithUrl u ls = none ↔ ∀ l ∈ ls, l.url ≠ u := by
  unfold lastWithUrl
  rw [List.getLast?_eq_none_iff, List.filter_eq_nil_iff]
  simp

theorem filterMap_lastWithUrl_filter (ls : List OnionLink) (u : String) :
    ∀ vs : List String, vs.Nodup →
      (vs.filterMap (fun v => lastWithUrl v ls)).filter (fun l => l.url = u) =
        if u ∈ vs then (lastWithUrl u ls).toList else [] := by
  intro vs
  induction vs with
  | nil => intro _; simp
  | cons v vs ih =>
    intro hnd
    have hvnotin : v ∉ vs := (List.nodup_cons.mp hnd).1
    have ihvs := ih (List.nodup_cons.mp hnd).2
    rw [List.filterMap_cons]
    cases hlv : lastWithUrl v ls with
    | none =>
      rw [ihvs]
      by_cases huv : u = v
      · subst huv
        rw [if_neg hvnotin, if_pos (List.mem_cons_self u vs), hlv]
        rfl
      · have : (u ∈ v :: vs) ↔ (u ∈ vs) := by
          simp [List.mem_cons, huv]
        rw [if_congr this rfl rfl]
    | some z =>
      have hz : z.url = v := lastWithUrl_url hlv
      rw [List.filter_cons]
      by_cases huv : u = v
      · subst huv
        rw [if_pos (by simp [hz]), ihvs, if_neg hvnotin,
          if_pos (List.mem_cons_self u vs), hlv]
        rfl
      · rw [if_neg (by simp [hz, Ne.symm huv]), ihvs]
        have : (u ∈ v :: vs) ↔ (u ∈ vs) := by
          simp [List.mem_cons, huv]
        rw [if_congr this rfl rfl]

theorem dedupLastWins_filter (ls : List OnionLink) (u : String) :
    (dedupLastWins ls).filter (fun l => l.url = u) = (lastWithUrl u ls).toList := by
  unfold dedupLastWins
  rw [filterMap_lastWithUrl_filter ls u _ (nodup_firstOccs _)]
  by_cases hu : u ∈ ls.map (fun l => l.url)
  · rw [if_pos (mem_firstOccs.mpr hu)]
  · rw [if_neg (fun h => hu (mem_firstOccs.mp h))]
    cases hz : lastWithUrl u ls with
    | none => rfl
    | some z =>
      exfalso
      apply hu
      have hmz : z ∈ ls.filter (fun x => x.url = u) := List.mem_of_mem_getLast? hz
      rcases List.mem_filter.mp hmz with ⟨hzl, hzu⟩
      simp only [decide_eq_true_eq] at hzu
      exact List.mem_map.mpr ⟨z, hzl, hzu⟩

/-! ## Only rows whose link field contains the marker are retained -/

theorem extractRawRows_hasOnion :
    ∀ (rows : List (List String)) (header : List String) (acc links : List OnionLink),
      extractRawRows header acc rows = .ok links →
      (∀ l ∈ acc, hasOnion l.url = true) → ∀ l ∈ links, hasOnion l.url = true := by
  intro rows
  induction rows with
  | nil =>
    intro header acc links h hacc
    simp only [extractRawRows, Except.ok.injEq] at h
    exact h ▸ hacc
  | cons r rs ih =>
    intro header acc links h hacc
    rw [extractRawRows] at h
    split at h
    · exact ih header acc links h hacc
    · split at h
      · exact Except.noConfusion h
      · rename_i l hl
        split at h
        · rename_i honion
          refine ih header _ links h ?_
          intro x hx
          rcases List.mem_append.mp hx with hx | hx
          · exact hacc x hx
          · rcases List.mem_singleton.mp hx with rfl
            simpa [mkLinkFrom] using honion
        · exact ih header acc links h hacc

/-- C5: `_extract_onion_links` keeps a parsed row only when its link field
contains the onion marker, and the dict-comprehension deduplication is
last-wins by url: the returned list has at most one link per url, namely
the image of the last retained row with that url in file order. -/
theorem c5_extract_retains_onion_and_dedups_last_wins
    (lines : List (List String)) (links : List OnionLink)
    (h : extractRawFromLines lines = .ok links) :
    extractFromLines lines = .ok (dedupLastWins links) ∧
    (∀ l ∈ links, hasOnion l.url = true) ∧
    (∀ u, (dedupLastWins links).filter (fun l => l.url = u) =
      ((links.filter (fun l => l.url = u)).getLast?).toList) ∧
    (∀ u, 2 ≤ (links.filter (fun l => l.url = u)).length →
      ∃ z, (links.filter (fun l => l.url = u)).getLast? = some z ∧
        (dedupLastWins links).filter (fun l => l.url = u) = [z]) := by
  refine ⟨?_, ?_, ?_, ?_⟩
  · unfold extractFromLines
    rw [h]
    rfl
  · intro l hl
    cases lines with
    | nil => exact Except.noConfusion h
    | cons first rest =>
      have h' : (if hasOnion (lastFieldD first) = true
          then runDictReader (headerRow :: first :: rest)
          else runDictReader (first :: rest)) = .ok links := h
      split at h'
      · exact extractRawRows_hasOnion (first :: rest) headerRow [] links h'
          (by intro x hx; simp at hx) l hl
      · exact extractRawRows_hasOnion rest first [] links h'
          (by intro x hx; simp at hx) l hl
  · intro u
    exact dedupLastWins_filter links u
  · intro u hlen
    cases hz : (links.filter (fun l => l.url = u)).getLast? with
    | none =>
      rw [List.getLast?_eq_none_iff] at hz
      rw [hz] at hlen
      simp at hlen
    | some z =>
      refine ⟨z, rfl, ?_⟩
      rw [dedupLastWins_filter]
      unfold lastWithUrl
      rw [hz]
      rfl

/-- Witness for C5 at a concrete artifact whose url `http://x.onion`
appears in two retained rows; the kept link is the later row's. -/
theorem c5_extract_retains_onion_and_dedups_last_wins_witness :
    extractFromLines
        [["engine", "name", "link"], ["e1", "n1", "http://x.onion"],
          ["e2", "n2", "http://y.onion"], ["e3", "n3", "http://x.onion"]] =
      .ok (dedupLastWins
        [⟨"http://x.onion", some "n1", some "e1", "discovered"⟩,
          ⟨"http://y.onion", some "n2", some "e2", "discovered"⟩,
          ⟨"http://x.onion", some "n3", some "e3", "discovered"⟩]) :=
  (c5_extract_retains_onion_and_dedups_last_wins
    [["engine", "name", "link"], ["e1", "n1", "http://x.onion"],
      ["e2", "n2", "http://y.onion"], ["e3", "n3", "http://x.onion"]]
    [⟨"http://x.onion", some "n1", some "e1", "discovered"⟩,
      ⟨"http://y.onion", some "n2", some "e2", "discovered"⟩,
      ⟨"http://x.onion", some "n3", some "e3", "discovered"⟩] rfl).1

/-- C6 (amended): header synthesis is transparent for every nonempty
sequence of data rows whose first row's last field contains the onion
marker — the condition the code uses to detect a missing header. -/
theorem c6_header_synthesis_transparent
    (first : List String) (rest : List (List String))
    (hmark : hasOnion (lastFieldD first) = true) :
    extractFromLines (headerRow :: first :: rest) = extractFromLines (first :: rest) := by
  have hh : hasOnion (lastFieldD headerRow) = false := rfl
  show Except.map dedupLastWins
      (if hasOnion (lastFieldD headerRow) = true then runDictReader (headerRow :: headerRow :: first :: rest)
        else runDictReader (headerRow :: first :: rest)) =
    Except.map dedupLastWins
      (if hasOnion (lastFieldD first) = true then runDictReader (headerRow :: first :: rest)
        else runDictReader (first :: rest))
  rw [hh, hmark]
  simp

/-- Witness for C6 (amended) at the spec's scenario-C artifact. -/
theorem c6_header_synthesis_transparent_witness :
    extractFromLines (headerRow :: ["tor66", "ExampleSite", "http://abc.onion"] :: []) =
      extractFromLines [["tor66", "ExampleSite", "http://abc.onion"]] :=
  c6_header_synthesis_transparent ["tor66", "ExampleSite", "http://abc.onion"] [] rfl

/-- C6 counterexample: when the first data row's link lacks the onion
marker, the headerless artifact loses the later onion link (that first row
is consumed as the header), so header presence is not transparent. -/
theorem c6_counterexample :
    extractFromLines [["engine", "name", "link"], ["e", "n", "http://plain.example"],
        ["e2", "n2", "http://abc.onion/x"]] =
      .ok [⟨"http://abc.onion/x", some "n2", some "e2", "discovered"⟩] ∧
    extractFromLines [["e", "n", "http://plain.example"], ["e2", "n2", "http://abc.onion/x"]] =
      .ok [] := by
  constructor <;> rfl

/-- C2 (amended): when no supported encoding decodes the artifact, every
decode attempt is swallowed by `except UnicodeDecodeError`, and extraction
returns successfully with the empty link set — there is no
`ArtifactUnreadable` failure in the code. -/
theorem c2_undecodable_artifact_yields_empty_success
    (a : Artifact) (h8 : a.utf8Lines = none) (h12 : a.win1252Lines = none) :
    extractOnionLinks a = .ok [] := by
  unfold extractOnionLinks decodeArtifact
  rw [h8, h12]
  rfl

/-- Witness for C2 (amended) at the concrete artifact no encoding decodes. -/
theorem c2_undecodable_artifact_yields_empty_success_witness :
    extractOnionLinks ⟨none, none⟩ = .ok ([] : List OnionLink) :=
  c2_undecodable_artifact_yields_empty_success ⟨none, none⟩ rfl rfl

/-- C2 counterexample: on the artifact no supported encoding decodes,
`_extract_onion_links` succeeds with the empty link set rather than
failing with `ArtifactUnreadable`. -/
theorem c2_counterexample :
    extractOnionLinks { utf8Lines := none, win1252Lines := none } = .ok [] := rfl

/-! ## `_limit_results_per_engine` -/

/-- Engine of a CSV row (`row[0]`). -/
def rowEngine (r : List String) : String := r.getD 0 ""

/-- The rows the limiter reads into its `defaultdict`:
`if len(row) >= 3` (`engine, name, link`). -/
def validRows (rows : List (List String)) : List (List String) :=
  rows.filter (fun r => 3 ≤ r.length)

/-- The `defaultdict` keys in first-appearance order (Python dict
iteration order). -/
def enginesOf (rows : List (List String)) : List String :=
  firstOccs ((validRows rows).map rowEngine)

/-- `engine_results[engine]`: one engine's rows, in original file order. -/
def engineGroup (rows : List (List String)) (e : String) : List (List String) :=
  (validRows rows).filter (fun r => rowEngine r = e)

/-- `_limit_results_per_engine`: group rows by `row[0]`, truncate each
group to its first `perEngineLimit` rows (`results[:per_engine_limit]`),
and extend `limited_results` group by group in engine key order. -/
def limitResultsPerEngine (rows : List (List String)) (perEngineLimit : Nat) :
    List (List String) :=
  (enginesOf rows).flatMap (fun e => (engineGroup rows e).take perEngineLimit)

theorem mem_engineGroup_engine {rows : List (List String)} {e : String} {r : List String}
    (h : r ∈ engineGroup rows e) : rowEngine r = e := by
  have := (List.mem_filter.mp h).2
  simpa using this

theorem mem_take_engineGroup_engine {rows : List (List String)} {e : String} {k : Nat}
    {r : List String} (h : r ∈ (engineGroup rows e).take k) : rowEngine r = e :=
  mem_engineGroup_engine (List.mem_of_mem_take h)

theorem filter_flatMap_engine_take (rows : List (List String)) (k : Nat) (e : String) :
    ∀ es : List String, es.Nodup →
      ((es.flatMap (fun x => (engineGroup rows x).take k)).filter
          (fun r => rowEngine r = e)) =
        if e ∈ es then (engineGroup rows e).take k else [] := by
  intro es
  induction es with
  | nil => intro _; simp
  | cons e' es ih =>
    intro hnd
    rw [List.flatMap_cons, List.filter_append, ih (List.nodup_cons.mp hnd).2]
    by_cases hee : e = e'
    · subst hee
      rw [if_neg (List.nodup_cons.mp hnd).1, if_pos (List.mem_cons_self e es)]
      rw [List.filter_eq_self.mpr, List.append_nil]
      intro r hr
      simp [mem_take_engineGroup_engine hr]
    · rw [List.filter_eq_nil_iff.mpr, List.nil_append]
      · have : (e ∈ e' :: es) ↔ (e ∈ es) := by simp [List.mem_cons, hee]
        rw [if_congr this rfl rfl]
      · intro r hr
        simp only [mem_take_engineGroup_engine hr, decide_eq_true_eq]
        exact fun hc => hee hc.symm

theorem engineGroup_eq_nil_of_not_mem {rows : List (List String)} {e : String}
    (h : e ∉ (validRows rows).map rowEngine) : engineGroup rows e = [] := by
  unfold engineGroup
  rw [List.filter_eq_nil_iff]
  intro r hr
  simp only [decide_eq_true_eq]
  intro hre
  exact h (List.mem_map.mpr ⟨r, hr, hre⟩)

/-- C4: for every input row set and cap `k`, the per-engine limiter
returns, for each engine, exactly the first `min k (group size)` rows of
that engine's group in original discovery order (the filtered output for an
engine is literally `take k` of its group), and the whole output is the
concatenation of the truncated groups — each engine capped independently
of the others. -/
theorem c4_limit_per_engine (rows : List (List String)) (k : Nat) (e : String) :
    (limitResultsPerEngine rows k).filter (fun r => rowEngine r = e) =
      (engineGroup rows e).take k ∧
    ((limitResultsPerEngine rows k).filter (fun r => rowEngine r = e)).length =
      min k (engineGroup rows e).length ∧
    limitResultsPerEngine rows k =
      (enginesOf rows).flatMap (fun x => (engineGroup rows x).take k) := by
  have hmain : (limitResultsPerEngine rows k).filter (fun r => rowEngine r = e) =
      (engineGroup rows e).take k := by
    unfold limitResultsPerEngine
    rw [filter_flatMap_engine_take rows k e (enginesOf rows) (nodup_firstOccs _)]
    unfold enginesOf
    by_cases he : e ∈ (validRows rows).map rowEngine
    · rw [if_pos (mem_firstOccs.mpr he)]
    · rw [if_neg (fun hmem => he (mem_firstOccs.mp hmem)),
        engineGroup_eq_nil_of_not_mem he, List.take_nil]
  refine ⟨hmain, ?_, rfl⟩
  rw [hmain, List.length_take]

/-! ## Job registry and `start_crawl` -/

/-- The `CrawlJob(...)` constructed by `start_crawl`: status PENDING, both
timestamps `datetime.now()`, counters at their schema defaults. -/
def mkJob (jobId q : String) (now : Nat) : CrawlJob :=
  { id := jobId, query := q, status := .pending, createdAt := now, updatedAt := now }

/-- The dedup test of `start_crawl`: identical query and status PENDING or
IN_PROGRESS. -/
def isActiveFor (q : String) (j : CrawlJob) : Bool :=
  j.query = q && (j.status = CrawlStatus.pending || j.status = CrawlStatus.inProgress)

/-- `active_jobs.values()` in insertion order (Python dict semantics). -/
abbrev Registry := List CrawlJob

/-- `start_crawl`: scan the registry for an active job with the same query
and return its id unchanged; otherwise register a fresh PENDING job under a
fresh uuid and return the new id.  The uuid draw and the clock are
parameters of the model. -/
def startCrawl (reg : Registry) (q : String) (newId : String) (now : Nat) :
    String × Registry :=
  match reg.find? (isActiveFor q) with
  | some j => (j.id, reg)
  | none => (newId, reg ++ [mkJob newId q now])

/-- A status write by the background task (`job.status = ...`) on the
registry entry with the given id. -/
def setStatus (reg : Registry) (jobId : String) (s : CrawlStatus) : Registry :=
  reg.map (fun j => if j.id = jobId then { j with status := s } else j)

theorem isActiveFor_mkJob (q i : String) (now : Nat) :
    isActiveFor q (mkJob i q now) = true := by
  simp [isActiveFor, mkJob]

theorem isActiveFor_query {q : String} {j : CrawlJob} (h : isActiveFor q j = true) :
    j.query = q := by
  have := h
  simp only [isActiveFor, Bool.and_eq_true, decide_eq_true_eq] at this
  exact this.1

theorem isActiveFor_status_set {q : String} {j : CrawlJob} {s : CrawlStatus}
    (hq : j.query = q) (hs : s = CrawlStatus.pending ∨ s = CrawlStatus.inProgress) :
    isActiveFor q { j with status := s } = true := by
  rcases hs with rfl | rfl <;> simp [isActiveFor, hq]

theorem isActiveFor_terminal_set {q : String} {j : CrawlJob} {s : CrawlStatus}
    (hs : s = CrawlStatus.completed ∨ s = CrawlStatus.failed) :
    isActiveFor q { j with status := s } = false := by
  rcases hs with rfl | rfl <;> simp [isActiveFor]

theorem setStatus_fresh {reg : Registry} {i : String} {s : CrawlStatus}
    (h : ∀ j ∈ reg, j.id ≠ i) : setStatus reg i s = reg := by
  unfold setStatus
  rw [List.map_congr_left (fun j hj => if_neg (h j hj))]
  exact List.map_id reg

theorem setStatus_append (l₁ l₂ : Registry) (i : String) (s : CrawlStatus) :
    setStatus (l₁ ++ l₂) i s = setStatus l₁ i s ++ setStatus l₂ i s :=
  List.map_append _ _ _

theorem find?_setStatus_active {q : String} {s : CrawlStatus}
    (hs : s = CrawlStatus.pending ∨ s = CrawlStatus.inProgress) :
    ∀ (reg : Registry) (j : CrawlJob), (reg.map (fun x => x.id)).Nodup →
      reg.find? (isActiveFor q) = some j →
      (setStatus reg j.id s).find? (isActiveFor q) = some { j with status := s } := by
  intro reg
  induction reg with
  | nil =>
    intro j _ hfind
    exact Option.noConfusion hfind
  | cons x rest ih =>
    intro j hnd hfind
    cases hx : isActiveFor q x with
    | true =>
      rw [List.find?_cons_of_pos _ hx] at hfind
      injection hfind with hxj
      subst hxj
      show ((if x.id = x.id then { x with status := s } else x) ::
        setStatus rest x.id s).find? (isActiveFor q) = _
      rw [if_pos rfl]
      exact List.find?_cons_of_pos _ (isActiveFor_status_set (isActiveFor_query hx) hs)
    | false =>
      rw [List.find?_cons_of_neg _ (by simp [hx])] at hfind
      have hjmem : j ∈ rest := List.mem_of_find?_eq_some hfind
      have hnd' := List.nodup_cons.mp
        (show (x.id :: rest.map (fun y => y.id)).Nodup from hnd)
      have hxid : x.id ≠ j.id := by
        intro hcontra
        exact hnd'.1 (hcontra ▸ List.mem_map.mpr ⟨j, hjmem, rfl⟩)
      show ((if x.id = j.id then { x with status := s } else x) ::
        setStatus rest j.id s).find? (isActiveFor q) = _
      rw [if_neg hxid, List.find?_cons_of_neg _ (by simp [hx])]
      exact ih j hnd'.2 hfind

/-- C1: `start_crawl` dedups against active jobs and otherwise registers a
fresh PENDING job.  (a) an active same-query job's id is returned and the
registry is unchanged; (b) otherwise the fresh id is returned and a PENDING
job is appended; (c) a second submission while the first job is still
PENDING or IN_PROGRESS returns the same id; (d) a second submission after
the first job reached COMPLETED or FAILED returns the fresh, different id. -/
theorem c1_submit_dedup_and_fresh
    (reg : Registry) (q n₁ n₂ : String) (now₁ now₂ : Nat) (s : CrawlStatus) :
    (∀ j, reg.find? (isActiveFor q) = some j → startCrawl reg q n₁ now₁ = (j.id, reg)) ∧
    (reg.find? (isActiveFor q) = none →
      startCrawl reg q n₁ now₁ = (n₁, reg ++ [mkJob n₁ q now₁]) ∧
      (mkJob n₁ q now₁).status = CrawlStatus.pending) ∧
    ((reg.map (fun j => j.id)).Nodup → (∀ j ∈ reg, j.id ≠ n₁) →
      (s = CrawlStatus.pending ∨ s = CrawlStatus.inProgress) →
      (startCrawl (setStatus (startCrawl reg q n₁ now₁).2 (startCrawl reg q n₁ now₁).1 s)
        q n₂ now₂).1 = (startCrawl reg q n₁ now₁).1) ∧
    (reg.find? (isActiveFor q) = none → (∀ j ∈ reg, j.id ≠ n₁) →
      (s = CrawlStatus.completed ∨ s = CrawlStatus.failed) → n₂ ≠ n₁ →
      (startCrawl (setStatus (startCrawl reg q n₁ now₁).2 (startCrawl reg q n₁ now₁).1 s)
        q n₂ now₂).1 = n₂ ∧
      (startCrawl (setStatus (startCrawl reg q n₁ now₁).2 (startCrawl reg q n₁ now₁).1 s)
        q n₂ now₂).1 ≠ (startCrawl reg q n₁ now₁).1) := by
  refine ⟨?_, ?_, ?_, ?_⟩
  · intro j hfind
    unfold startCrawl
    rw [hfind]
  · intro hfind
    unfold startCrawl
    rw [hfind]
    exact ⟨rfl, rfl⟩
  · intro hnd hfresh hs
    cases hfind : reg.find? (isActiveFor q) with
    | some j =>
      have h₁ : startCrawl reg q n₁ now₁ = (j.id, reg) := by
        unfold startCrawl; rw [hfind]
      rw [h₁]
      have h₂ := find?_setStatus_active hs reg j hnd hfind
      unfold startCrawl
      rw [h₂]
    | none =>
      have h₁ : startCrawl reg q n₁ now₁ = (n₁, reg ++ [mkJob n₁ q now₁]) := by
        unfold startCrawl; rw [hfind]
      rw [h₁]
      show (startCrawl (setStatus (reg ++ [mkJob n₁ q now₁]) n₁ s) q n₂ now₂).1 = n₁
      rw [setStatus_append, setStatus_fresh hfresh]
      have hup : setStatus [mkJob n₁ q now₁] n₁ s =
          [{ mkJob n₁ q now₁ with status := s }] := by
        unfold setStatus
        simp [mkJob]
      rw [hup]
      unfold startCrawl
      rw [List.find?_append, hfind, Option.none_or,
        List.find?_cons_of_pos _ (isActiveFor_status_set (by simp [mkJob]) hs)]
      rfl
  · intro hfind hfresh hs hne
    have h₁ : startCrawl reg q n₁ now₁ = (n₁, reg ++ [mkJob n₁ q now₁]) := by
      unfold startCrawl; rw [hfind]
    rw [h₁]
    have hreg₂ : setStatus (reg ++ [mkJob n₁ q now₁]) n₁ s =
        reg ++ [{ mkJob n₁ q now₁ with status := s }] := by
      rw [setStatus_append, setStatus_fresh hfresh]
      unfold setStatus
      simp [mkJob]
    rw [hreg₂]
    have hnone : (reg ++ [{ mkJob n₁ q now₁ with status := s }]).find? (isActiveFor q) =
        none := by
      rw [List.find?_append, hfind, Option.none_or,
        List.find?_cons_of_neg _ (by simp [isActiveFor_terminal_set hs]), List.find?_nil]
    constructor
    · unfold startCrawl
      rw [hnone]
    · unfold startCrawl
      rw [hnone]
      exact hne

/-! ## The fetch loop of `_execute_crawl` -/

/-- The job fields the fetch loop mutates. -/
structure LoopState where
  crawledLinks : Nat
  failedLinks : Nat
  pages : List CrawledPage
  attempted : List String
deriving DecidableEq, Repr

/-- One iteration of the fetch loop.  `_crawl_page` catches every
exception and returns `None` on failure, so each iteration increments
exactly one of `crawled_links` and `failed_links` by one, and appends the
page on success. -/
def crawlStep (fetch : String → Option CrawledPage) (s : LoopState) (link : OnionLink) :
    LoopState :=
  match fetch link.url with
  | some p =>
    { s with
      crawledLinks := s.crawledLinks + 1
      pages := s.pages ++ [p]
      attempted := s.attempted ++ [link.url] }
  | none =>
    { s with
      failedLinks := s.failedLinks + 1
      attempted := s.attempted ++ [link.url] }

/-- Counters at job creation (schema defaults, `_execute_crawl` is run once
on a fresh job). -/
def initLoopState : LoopState := ⟨0, 0, [], []⟩

/-- The loop state after the first `n` iterations over `links_to_crawl`. -/
def loopStateAt (fetch : String → Option CrawledPage) (links : List OnionLink) (n : Nat) :
    LoopState :=
  (links.take n).foldl (crawlStep fetch) initLoopState

/-- `job.total_links = len(all_onion_links)`; the loop then runs over the
same list (`links_to_crawl = all_onion_links`). -/
def totalLinksOf (links : List OnionLink) : Nat := links.length

theorem crawl_loop_counter_sum (fetch : String → Option CrawledPage) :
    ∀ (l : List OnionLink) (s : LoopState),
      (l.foldl (crawlStep fetch) s).crawledLinks + (l.foldl (crawlStep fetch) s).failedLinks =
        s.crawledLinks + s.failedLinks + l.length := by
  intro l
  induction l with
  | nil => intro s; simp
  | cons x xs ih =>
    intro s
    rw [List.foldl_cons, ih]
    unfold crawlStep
    cases fetch x.url <;> simp <;> omega

/-- C7: at every observation point of the fetch loop (after `n`
iterations, for any `n`), `crawledLinks + failedLinks = min n totalLinks`,
hence never exceeds `totalLinks`; and each iteration within range
increments exactly one of the two counters by exactly one. -/
theorem c7_counter_invariant (fetch : String → Option CrawledPage)
    (links : List OnionLink) (n : Nat) :
    (loopStateAt fetch links n).crawledLinks + (loopStateAt fetch links n).failedLinks =
      min n (totalLinksOf links) ∧
    (loopStateAt fetch links n).crawledLinks + (loopStateAt fetch links n).failedLinks ≤
      totalLinksOf links ∧
    (n < links.length →
      ((loopStateAt fetch links (n + 1)).crawledLinks =
          (loopStateAt fetch links n).crawledLinks + 1 ∧
        (loopStateAt fetch links (n + 1)).failedLinks =
          (loopStateAt fetch links n).failedLinks) ∨
      ((loopStateAt fetch links (n + 1)).crawledLinks =
          (loopStateAt fetch links n).crawledLinks ∧
        (loopStateAt fetch links (n + 1)).failedLinks =
          (loopStateAt fetch links n).failedLinks + 1)) := by
  have hsum : (loopStateAt fetch links n).crawledLinks +
      (loopStateAt fetch links n).failedLinks = min n (totalLinksOf links) := by
    unfold loopStateAt
    rw [crawl_loop_counter_sum fetch (links.take n) initLoopState]
    simp [initLoopState, totalLinksOf]
  refine ⟨hsum, ?_, ?_⟩
  · rw [hsum]
    exact min_le_right _ _
  · intro hn
    have hstep : loopStateAt fetch links (n + 1) =
        crawlStep fetch (loopStateAt fetch links n) links[n] := by
      unfold loopStateAt
      rw [List.take_succ, List.getElem?_eq_getElem hn,
        show (some links[n]).toList = [links[n]] from rfl, List.foldl_append]
      rfl
    rw [hstep]
    unfold crawlStep
    cases fetch links[n].url with
    | some p => exact Or.inl ⟨rfl, rfl⟩
    | none => exact Or.inr ⟨rfl, rfl⟩

/-! ## Status and page lookups (`get_job_status`, `get_job_pages`,
`GET /crawl/{job_id}` and `GET /crawl/{job_id}/pages`) -/

/-- `active_jobs.get(job_id)`. -/
def getJobStatus (reg : Registry) (jobId : String) : Option CrawlJob :=
  reg.find? (fun j => j.id = jobId)

/-- `get_job_pages`: `job.pages if job else []` — an absent id yields the
empty list, not a distinguished absence. -/
def getJobPages (reg : Registry) (jobId : String) : List CrawledPage :=
  match getJobStatus reg jobId with
  | some j => j.pages
  | none => []

/-- `GET /crawl/{job_id}` (status part): absent id raises
`HTTPException(404, "Crawl job not found")`. -/
def getCrawlStatusEndpoint (reg : Registry) (jobId : String) :
    Except (Nat × String) CrawlJob :=
  match getJobStatus reg jobId with
  | none => .error (404, "Crawl job not found")
  | some j => .ok j

/-- `GET /crawl/{job_id}/pages`: the endpoint guards with
`if pages is None: raise 404`, but `get_job_pages` returns a list in every
case, so the guard never fires and the endpoint always answers 200 with
`{"job_id": ..., "pages": ...}`. -/
def getCrawlPagesEndpoint (reg : Registry) (jobId : String) :
    Except (Nat × String) (String × List CrawledPage) :=
  .ok (jobId, getJobPages reg jobId)

/-- C9: at the failing input — a registry without the requested id — the
status lookup does surface not-found (`None`, a 404), but the page-set
endpoint answers 200 with an empty page list, the very same response it
gives for a registered job whose pages list is empty, so absence is not
surfaced there. -/
theorem c9_pages_lookup_not_found_bug :
    getJobStatus [] "missing" = none ∧
    getCrawlStatusEndpoint [] "missing" = .error (404, "Crawl job not found") ∧
    getCrawlPagesEndpoint [] "missing" = .ok ("missing", []) ∧
    getCrawlPagesEndpoint [mkJob "missing" "q" 0] "missing" = .ok ("missing", []) :=
  ⟨rfl, rfl, rfl, rfl⟩

/-! ## The unused `limit` argument (`start_crawl` → `_execute_crawl` →
`_run_onionsearch`) -/

/-- `settings.ONIONSEARCH_PER_ENGINE_LIMIT`. -/
def ONIONSEARCH_PER_ENGINE_LIMIT : Nat := 5

/-- `settings.DEFAULT_CRAWL_LIMIT`. -/
def DEFAULT_CRAWL_LIMIT : Nat := 10

/-- `limit = limit or settings.DEFAULT_CRAWL_LIMIT` in `start_crawl`
(Python `or`: both `None` and `0` are falsy). -/
def resolveLimit : Option Nat → Nat
  | none => DEFAULT_CRAWL_LIMIT
  | some 0 => DEFAULT_CRAWL_LIMIT
  | some (n + 1) => n + 1

/-- `_run_onionsearch`: receives `limit` but never reads it — the tool is
invoked with the configured per-engine limit and the output is
post-processed by `_limit_results_per_engine` with the same configured
cap.  `discover` stands for the external tool: the rows it writes for a
given query and `--limit` flag. -/
def runOnionsearch (discover : String → Nat → List (List String))
    (q : String) (lim : Nat) : List (List String) :=
  limitResultsPerEngine (discover q ONIONSEARCH_PER_ENGINE_LIMIT)
    ONIONSEARCH_PER_ENGINE_LIMIT

/-- Discovery part of `_execute_crawl`: run the tool and extract onion
links from the limited file (written in utf-8, so it decodes as such). -/
def discoverLinks (discover : String → Nat → List (List String))
    (q : String) (lim : Nat) : Except ExtractErr (List OnionLink) :=
  extractFromLines (runOnionsearch discover q lim)

/-- `_execute_crawl` after discovery: `links_to_crawl = all_onion_links`
and the fetch loop runs over that whole list. -/
def executeCrawlOutcome (discover : String → Nat → List (List String))
    (fetch : String → Option CrawledPage) (q : String) (lim : Nat) :
    Except ExtractErr LoopState :=
  match discoverLinks discover q lim with
  | .error e => .error e
  | .ok links => .ok (links.foldl (crawlStep fetch) initLoopState)

theorem crawl_loop_attempted (fetch : String → Option CrawledPage) :
    ∀ (l : List OnionLink) (s : LoopState),
      (l.foldl (crawlStep fetch) s).attempted = s.attempted ++ l.map (fun x => x.url) := by
  intro l
  induction l with
  | nil => intro s; simp
  | cons x xs ih =>
    intro s
    rw [List.foldl_cons, ih]
    unfold crawlStep
    cases fetch x.url <;> simp

/-- C10: the submitted `limit` has no effect on the crawl.  For any two
provided non-zero limits, discovery yields the same links and the whole
execution outcome is identical (the per-engine cap comes only from the
configuration), and the fetch loop attempts every url of the discovered
link set, in order, regardless of the limit. -/
theorem c10_submit_limit_has_no_effect
    (discover : String → Nat → List (List String))
    (fetch : String → Option CrawledPage) (q : String) (l₁ l₂ : Nat)
    (h₁ : l₁ ≠ 0) (h₂ : l₂ ≠ 0) :
    discoverLinks discover q (resolveLimit (some l₁)) =
      discoverLinks discover q (resolveLimit (some l₂)) ∧
    executeCrawlOutcome discover fetch q (resolveLimit (some l₁)) =
      executeCrawlOutcome discover fetch q (resolveLimit (some l₂)) ∧
    (∀ links, discoverLinks discover q (resolveLimit (some l₁)) = .ok links →
      executeCrawlOutcome discover fetch q (resolveLimit (some l₁)) =
        .ok (links.foldl (crawlStep fetch) initLoopState) ∧
      (links.foldl (crawlStep fetch) initLoopState).attempted =
        links.map (fun x => x.url)) := by
  refine ⟨rfl, rfl, ?_⟩
  intro links hlinks
  constructor
  · unfold executeCrawlOutcome
    rw [hlinks]
  · rw [crawl_loop_attempted fetch links initLoopState]
    rfl

/-- Witness for C10 at a concrete discovery oracle and two distinct
non-zero limits. -/
theorem c10_submit_limit_has_no_effect_witness :
    discoverLinks (fun _ _ => [["engine", "name", "link"],
        ["ahmia", "s", "http://a.onion"]]) "guns" (resolveLimit (some 1)) =
      discoverLinks (fun _ _ => [["engine", "name", "link"],
        ["ahmia", "s", "http://a.onion"]]) "guns" (resolveLimit (some 7)) :=
  (c10_submit_limit_has_no_effect
    (fun _ _ => [["engine", "name", "link"], ["ahmia", "s", "http://a.onion"]])
    (fun _ => none) "guns" 1 7 (by decide) (by decide)).1

/-! ## `get_analysis_results_for_job` (the AnalysisAggregator) -/

/-- One record of an analysis-report artifact as the aggregator reads it:
`url`, `title`, `summary`, and `risk_assessment.score`
(`analysis.get('risk_assessment', {}).get('score', 0)`). -/
structure AnalysisRecord where
  url : String
  title : String
  summary : String
  score : Int
deriving DecidableEq, Repr

/-- The replacement test, `current` against `existing`: strictly higher
score, or equal score with a strictly longer summary. -/
def better (a b : AnalysisRecord) : Bool :=
  decide (b.score < a.score) ||
    (decide (a.score = b.score) && decide (b.summary.length < a.summary.length))

/-- The inner `for i, existing in enumerate(all_analyses)` scan: the first
record with the candidate's url is replaced iff the candidate is better;
`break` stops the scan after that first hit. -/
def replaceIfBetter (r : AnalysisRecord) : List AnalysisRecord → List AnalysisRecord
  | [] => []
  | e :: es =>
    if e.url = r.url then (if better r e then r :: es else e :: es)
    else e :: replaceIfBetter r es

/-- One record of the aggregation loop: records with empty url are
skipped; a seen url runs the replacement scan (`seen_urls` always holds
exactly the urls of `all_analyses`, so membership is tested on the
accumulator); an unseen url is appended and marked seen. -/
def aggStep (acc : List AnalysisRecord) (r : AnalysisRecord) : List AnalysisRecord :=
  if r.url = "" then acc
  else if acc.any (fun e => e.url = r.url) then replaceIfBetter r acc
  else acc ++ [r]

/-- The aggregation loop over the records of the processed artifacts in
processing order. -/
def aggregateRecords (rs : List AnalysisRecord) : List AnalysisRecord :=
  rs.foldl aggStep []

/-- The fold one url's record sequence effectively undergoes: keep the
current record, replace it only by a strictly better candidate. -/
def keptFrom (e : AnalysisRecord) : List AnalysisRecord → AnalysisRecord
  | [] => e
  | r :: rs => keptFrom (if better r e then r else e) rs

/-- The record the aggregation keeps for one url, given that url's records
in processing order. -/
def kept1 : List AnalysisRecord → Option AnalysisRecord
  | [] => none
  | r :: rs => some (keptFrom r rs)

/-- `kept1` continued from an already-kept record. -/
def kept1From (o : Option AnalysisRecord) (l : List AnalysisRecord) :
    Option AnalysisRecord :=
  match o with
  | some e => some (keptFrom e l)
  | none => kept1 l

/-- The quality key the replacement test orders by. -/
def keyOf (r : AnalysisRecord) : Int × Nat := (r.score, r.summary.length)

theorem better_iff {a b : AnalysisRecord} :
    better a b = true ↔
      (b.score < a.score ∨ (a.score = b.score ∧ b.summary.length < a.summary.length)) := by
  simp [better]

theorem better_eq_false_iff {a b : AnalysisRecord} :
    better a b = false ↔
      ¬ (b.score < a.score ∨ (a.score = b.score ∧ b.summary.length < a.summary.length)) := by
  rw [← better_iff]
  cases better a b <;> simp

theorem better_trans {a b c : AnalysisRecord} (h₁ : better a b = true)
    (h₂ : better b c = true) : better a c = true := by
  rw [better_iff] at *
  omega

theorem better_shift {r e x : AnalysisRecord} (h₁ : better r e = false)
    (h₂ : better r x = true) : better e x = true := by
  rw [better_eq_false_iff] at h₁
  rw [better_iff] at *
  omega

theorem better_of_keys_eq {a b : AnalysisRecord} (h : keyOf a = keyOf b) :
    better a b = false := by
  have h₁ : a.score = b.score := congrArg Prod.fst h
  have h₂ : a.summary.length = b.summary.length := congrArg Prod.snd h
  rw [better_eq_false_iff]
  omega

theorem keys_eq_of_not_better_both {a b : AnalysisRecord} (h₁ : better a b = false)
    (h₂ : better b a = false) : keyOf a = keyOf b := by
  rw [better_eq_false_iff] at h₁ h₂
  have : a.score = b.score ∧ a.summary.length = b.summary.length := by omega
  simp [keyOf, this.1, this.2]

theorem keptFrom_mem : ∀ (l : List AnalysisRecord) (e : AnalysisRecord),
    keptFrom e l = e ∨ keptFrom e l ∈ l := by
  intro l
  induction l with
  | nil => intro e; exact Or.inl rfl
  | cons r rs ih =>
    intro e
    rw [keptFrom]
    rcases ih (if better r e then r else e) with heq | hmem
    · rw [heq]
      by_cases hb : better r e = true
      · rw [if_pos hb]
        exact Or.inr (List.mem_cons_self r rs)
      · rw [if_neg hb]
        exact Or.inl rfl
    · exact Or.inr (List.mem_cons_of_mem r hmem)

theorem keptFrom_not_better : ∀ (l : List AnalysisRecord) (e : AnalysisRecord),
    (∀ r ∈ l, better r (keptFrom e l) = false) ∧ better e (keptFrom e l) = false := by
  intro l
  induction l with
  | nil =>
    intro e
    refine ⟨by intro r hr; simp at hr, ?_⟩
    rw [keptFrom]
    rw [better_eq_false_iff]
    omega
  | cons r rs ih =>
    intro e
    rw [keptFrom]
    rcases ih (if better r e then r else e) with ⟨ihall, ihself⟩
    by_cases hre : better r e = true
    · rw [if_pos hre] at ihall ihself ⊢
      refine ⟨?_, ?_⟩
      · intro x hx
        rcases List.mem_cons.mp hx with rfl | hx
        · exact ihself
        · exact ihall x hx
      · cases hef : better e (keptFrom r rs) with
        | false => rfl
        | true => exact absurd (better_trans hre hef) (by rw [ihself]; simp)
    · rw [if_neg hre] at ihall ihself ⊢
      have hre' : better r e = false := by
        cases hb : better r e
        · rfl
        · exact absurd hb hre
      refine ⟨?_, ihself⟩
      intro x hx
      rcases List.mem_cons.mp hx with rfl | hx
      · cases hxf : better x (keptFrom e rs) with
        | false => rfl
        | true => exact absurd (better_shift hre' hxf) (by rw [ihself]; simp)
      · exact ihall x hx

theorem kept1_spec {l : List AnalysisRecord} {m : AnalysisRecord}
    (h : kept1 l = some m) : m ∈ l ∧ ∀ r ∈ l, better r m = false := by
  cases l with
  | nil => exact Option.noConfusion h
  | cons r rs =>
    rw [kept1] at h
    injection h with hm
    subst hm
    constructor
    · rcases keptFrom_mem rs r with heq | hmem
      · rw [heq]; exact List.mem_cons_self r rs
      · exact List.mem_cons_of_mem r hmem
    · intro x hx
      rcases List.mem_cons.mp hx with rfl | hx
      · exact (keptFrom_not_better rs x).2
      · exact (keptFrom_not_better rs r).1 x hx

theorem kept1_isSome_of_ne_nil {l : List AnalysisRecord} (h : l ≠ []) :
    ∃ m, kept1 l = some m := by
  cases l with
  | nil => exact absurd rfl h
  | cons r rs => exact ⟨keptFrom r rs, rfl⟩

theorem kept1_perm {l₁ l₂ : List AnalysisRecord} (hperm : l₁.Perm l₂)
    (hk : (l₂.map keyOf).Nodup) : kept1 l₁ = kept1 l₂ := by
  cases l₁ with
  | nil =>
    have : l₂ = [] := hperm.symm.eq_nil
    rw [this]
  | cons a as =>
    have hne₂ : l₂ ≠ [] := by
      intro hnil
      rw [hnil] at hperm
      exact absurd hperm.eq_nil (by simp)
    obtain ⟨m₂, hm₂⟩ := kept1_isSome_of_ne_nil hne₂
    have hm₁ : kept1 (a :: as) = some (keptFrom a as) := rfl
    obtain ⟨hmem₁, hall₁⟩ := kept1_spec hm₁
    obtain ⟨hmem₂, hall₂⟩ := kept1_spec hm₂
    have hmem₁₂ : keptFrom a as ∈ l₂ := hperm.mem_iff.mp hmem₁
    have h₁ : better m₂ (keptFrom a as) = false :=
      hall₁ m₂ (hperm.mem_iff.mpr hmem₂)
    have h₂ : better (keptFrom a as) m₂ = false := hall₂ _ hmem₁₂
    have hkeys : keyOf (keptFrom a as) = keyOf m₂ := keys_eq_of_not_better_both h₂ h₁
    have : keptFrom a as = m₂ :=
      List.inj_on_of_nodup_map hk hmem₁₂ hmem₂ hkeys
    rw [hm₁, hm₂, this]

theorem find?_replaceIfBetter_ne {r : AnalysisRecord} {u : String} (hne : r.url ≠ u) :
    ∀ acc : List AnalysisRecord,
      (replaceIfBetter r acc).find? (fun e => e.url = u) =
        acc.find? (fun e => e.url = u) := by
  intro acc
  induction acc with
  | nil => rfl
  | cons e es ih =>
    rw [replaceIfBetter]
    by_cases heu : e.url = r.url
    · rw [if_pos heu]
      by_cases hb : better r e = true
      · rw [if_pos hb, List.find?_cons_of_neg _ (by simp [hne]),
          List.find?_cons_of_neg _ (by simp [heu, hne])]
      · rw [if_neg hb]
    · rw [if_neg heu]
      by_cases heq : e.url = u
      · rw [List.find?_cons_of_pos _ (by simp [heq]),
          List.find?_cons_of_pos _ (by simp [heq])]
      · rw [List.find?_cons_of_neg _ (by simp [heq]),
          List.find?_cons_of_neg _ (by simp [heq]), ih]

theorem find?_replaceIfBetter_hit {r e : AnalysisRecord} :
    ∀ acc : List AnalysisRecord, acc.find? (fun x => x.url = r.url) = some e →
      (replaceIfBetter r acc).find? (fun x => x.url = r.url) =
        some (if better r e then r else e) := by
  intro acc
  induction acc with
  | nil => intro h; exact Option.noConfusion h
  | cons x es ih =>
    intro h
    rw [replaceIfBetter]
    by_cases hxu : x.url = r.url
    · rw [List.find?_cons_of_pos _ (by simp [hxu])] at h
      injection h with hxe
      subst hxe
      rw [if_pos hxu]
      by_cases hb : better r x = true
      · rw [if_pos hb, if_pos hb]
        exact List.find?_cons_of_pos _ (by simp)
      · rw [if_neg hb, if_neg hb]
        exact List.find?_cons_of_pos _ (by simp [hxu])
    · rw [List.find?_cons_of_neg _ (by simp [hxu])] at h
      rw [if_neg hxu, List.find?_cons_of_neg _ (by simp [hxu])]
      exact ih h

theorem kept1From_nil (o : Option AnalysisRecord) : kept1From o [] = o := by
  cases o <;> rfl

theorem kept1From_cons (o : Option AnalysisRecord) (r : AnalysisRecord)
    (l : List AnalysisRecord) :
    kept1From o (r :: l) =
      kept1From (some (match o with
        | none => r
        | some e => if better r e then r else e)) l := by
  cases o with
  | none => rfl
  | some e => rfl

theorem find?_pred_true {α : Type _} (p : α → Bool) (l : List α) (a : α)
    (h : l.find? p = some a) : p a = true :=
  List.find?_some h

theorem agg_find_gen (u : String) (hu : u ≠ "") :
    ∀ (rs acc : List AnalysisRecord),
      (rs.foldl aggStep acc).find? (fun e => e.url = u) =
        kept1From (acc.find? (fun e => e.url = u)) (rs.filter (fun r => r.url = u)) := by
  intro rs
  induction rs with
  | nil => intro acc; rw [List.foldl_nil, List.filter_nil, kept1From_nil]
  | cons r rs ih =>
    intro acc
    rw [List.foldl_cons, ih (aggStep acc r)]
    by_cases hru : r.url = u
    · subst hru
      rw [List.filter_cons_of_pos (by simp), kept1From_cons]
      congr 1
      cases hacc : acc.find? (fun e => e.url = r.url) with
      | some e =>
        have hpe := find?_pred_true (fun e => decide (e.url = r.url)) acc e hacc
        have hany : acc.any (fun e => e.url = r.url) = true :=
          List.any_eq_true.mpr ⟨e, List.mem_of_find?_eq_some hacc, hpe⟩
        unfold aggStep
        rw [if_neg hu, if_pos hany]
        exact find?_replaceIfBetter_hit acc hacc
      | none =>
        have hany : ¬ acc.any (fun e => e.url = r.url) = true := by
          intro hcontra
          rcases List.any_eq_true.mp hcontra with ⟨x, hxmem, hxp⟩
          have := List.find?_eq_none.mp hacc x hxmem
          exact this hxp
        unfold aggStep
        rw [if_neg hu, if_neg hany, List.find?_append, hacc, Option.none_or]
        exact List.find?_cons_of_pos _ (by simp)
    · rw [List.filter_cons_of_neg (by simp [hru])]
      have hfind : (aggStep acc r).find? (fun e => e.url = u) =
          acc.find? (fun e => e.url = u) := by
        unfold aggStep
        by_cases hre : r.url = ""
        · rw [if_pos hre]
        · rw [if_neg hre]
          by_cases hany : acc.any (fun e => e.url = r.url) = true
          · rw [if_pos hany]
            exact find?_replaceIfBetter_ne hru acc
          · rw [if_neg hany, List.find?_append,
              List.find?_cons_of_neg _ (by simp [hru]), List.find?_nil]
            exact Option.or_none
      rw [hfind]

theorem aggregateRecords_find? (rs : List AnalysisRecord) (u : String) (hu : u ≠ "") :
    (aggregateRecords rs).find? (fun e => e.url = u) =
      kept1 (rs.filter (fun r => r.url = u)) := by
  unfold aggregateRecords
  rw [agg_find_gen u hu rs []]
  rfl

theorem replaceIfBetter_map_url (r : AnalysisRecord) :
    ∀ acc : List AnalysisRecord,
      (replaceIfBetter r acc).map (fun e => e.url) = acc.map (fun e => e.url) := by
  intro acc
  induction acc with
  | nil => rfl
  | cons e es ih =>
    rw [replaceIfBetter]
    by_cases heu : e.url = r.url
    · rw [if_pos heu]
      by_cases hb : better r e = true
      · rw [if_pos hb]
        simp [heu]
      · rw [if_neg hb]
    · rw [if_neg heu]
      simp [ih]

theorem mem_replaceIfBetter {r x : AnalysisRecord} :
    ∀ {acc : List AnalysisRecord}, x ∈ replaceIfBetter r acc → x ∈ acc ∨ x = r := by
  intro acc
  induction acc with
  | nil => intro h; simp [replaceIfBetter] at h
  | cons e es ih =>
    intro h
    rw [replaceIfBetter] at h
    by_cases heu : e.url = r.url
    · rw [if_pos heu] at h
      by_cases hb : better r e = true
      · rw [if_pos hb] at h
        rcases List.mem_cons.mp h with rfl | hmem
        · exact Or.inr rfl
        · exact Or.inl (List.mem_cons_of_mem e hmem)
      · rw [if_neg hb] at h
        exact Or.inl h
    · rw [if_neg heu] at h
      rcases List.mem_cons.mp h with rfl | hmem
      · exact Or.inl (List.mem_cons_self x es)
      · rcases ih hmem with hm | hr
        · exact Or.inl (List.mem_cons_of_mem e hm)
        · exact Or.inr hr

theorem agg_urls_nodup : ∀ (rs acc : List AnalysisRecord),
    (acc.map (fun e => e.url)).Nodup →
      ((rs.foldl aggStep acc).map (fun e => e.url)).Nodup := by
  intro rs
  induction rs with
  | nil => intro acc h; exact h
  | cons r rs ih =>
    intro acc h
    rw [List.foldl_cons]
    refine ih (aggStep acc r) ?_
    unfold aggStep
    by_cases hre : r.url = ""
    · rw [if_pos hre]; exact h
    · rw [if_neg hre]
      by_cases hany : acc.any (fun e => e.url = r.url) = true
      · rw [if_pos hany, replaceIfBetter_map_url]; exact h
      · rw [if_neg hany, List.map_append, List.nodup_append]
        refine ⟨h, by simp, ?_⟩
        intro v hv hv'
        rcases List.mem_map.mp hv with ⟨e, he, heq⟩
        have hvr : v = r.url := by simpa using hv'
        exact hany (List.any_eq_true.mpr ⟨e, he, by simp [heq, hvr]⟩)

theorem agg_url_ne_empty : ∀ (rs acc : List AnalysisRecord),
    (∀ e ∈ acc, e.url ≠ "") → ∀ x ∈ rs.foldl aggStep acc, x.url ≠ "" := by
  intro rs
  induction rs with
  | nil => intro acc h; exact h
  | cons r rs ih =>
    intro acc h
    rw [List.foldl_cons]
    refine ih (aggStep acc r) ?_
    intro x hx
    unfold aggStep at hx
    by_cases hre : r.url = ""
    · rw [if_pos hre] at hx
      exact h x hx
    · rw [if_neg hre] at hx
      by_cases hany : acc.any (fun e => e.url = r.url) = true
      · rw [if_pos hany] at hx
        rcases mem_replaceIfBetter hx with hmem | rfl
        · exact h x hmem
        · exact hre
      · rw [if_neg hany] at hx
        rcases List.mem_append.mp hx with hmem | hmem
        · exact h x hmem
        · rcases List.mem_singleton.mp hmem with rfl
          exact hre

theorem find?_of_mem_nodup_urls {x : AnalysisRecord} :
    ∀ {l : List AnalysisRecord}, x ∈ l → ((l.map (fun e => e.url)).Nodup) →
      l.find? (fun e => e.url = x.url) = some x := by
  intro l
  induction l with
  | nil => intro h _; simp at h
  | cons e es ih =>
    intro hmem hnd
    have hnd' := List.nodup_cons.mp
      (show (e.url :: es.map (fun y => y.url)).Nodup from hnd)
    rcases List.mem_cons.mp hmem with rfl | hmem'
    · exact List.find?_cons_of_pos _ (by simp)
    · have hne : e.url ≠ x.url := by
        intro hcontra
        exact hnd'.1 (hcontra ▸ List.mem_map.mpr ⟨x, hmem', rfl⟩)
      rw [List.find?_cons_of_neg _ (by simp [hne])]
      exact ih hmem' hnd'.2

theorem mem_aggregateRecords_iff {rs : List AnalysisRecord} {x : AnalysisRecord} :
    x ∈ aggregateRecords rs ↔
      (aggregateRecords rs).find? (fun e => e.url = x.url) = some x := by
  constructor
  · intro h
    exact find?_of_mem_nodup_urls h (agg_urls_nodup rs [] (by simp))
  · exact List.mem_of_find?_eq_some

/-- C3: the aggregator's merge is best-known-verdict-wins.  (a) the record
kept for a url is the fold of that url's records under "replace iff
strictly higher score, or equal score and strictly longer summary";
(b) over any two processing orders of the same artifacts in which no two
records for one url share score and summary length, the resulting record
sets are identical; (c) a record is retained against any sequence of
not-strictly-better candidates; (d) with equal score and summary length,
the earlier-processed of two records for a url is the one kept. -/
theorem c3_aggregator_best_known_verdict :
    (∀ (rs : List AnalysisRecord) (u : String), u ≠ "" →
      (aggregateRecords rs).find? (fun e => e.url = u) =
        kept1 (rs.filter (fun r => r.url = u))) ∧
    (∀ arts₁ arts₂ : List (List AnalysisRecord), arts₁.Perm arts₂ →
      (∀ u, ((arts₁.flatten.filter (fun r => r.url = u)).map keyOf).Nodup) →
      ∀ x, (x ∈ aggregateRecords arts₁.flatten ↔ x ∈ aggregateRecords arts₂.flatten)) ∧
    (∀ (e : AnalysisRecord) (l : List AnalysisRecord),
      (∀ r ∈ l, better r e = false) → keptFrom e l = e) ∧
    (∀ (rs : List AnalysisRecord) (u : String) (r₁ r₂ : AnalysisRecord), u ≠ "" →
      rs.filter (fun r => r.url = u) = [r₁, r₂] → keyOf r₁ = keyOf r₂ →
      (aggregateRecords rs).find? (fun e => e.url = u) = some r₁) := by
  have hkeptfix : ∀ (l : List AnalysisRecord) (e : AnalysisRecord),
      (∀ r ∈ l, better r e = false) → keptFrom e l = e := by
    intro l
    induction l with
    | nil => intro e _; rfl
    | cons r rs ih =>
      intro e h
      rw [keptFrom, if_neg (by rw [h r (List.mem_cons_self r rs)]; simp)]
      exact ih e (fun x hx => h x (List.mem_cons_of_mem r hx))
  refine ⟨fun rs u hu => aggregateRecords_find? rs u hu, ?_,
    fun e l h => hkeptfix l e h, ?_⟩
  · intro arts₁ arts₂ hperm hkeys x
    by_cases hx : x.url = ""
    · constructor
      · intro hmem
        exact absurd hx (agg_url_ne_empty arts₁.flatten [] (by simp) x hmem)
      · intro hmem
        exact absurd hx (agg_url_ne_empty arts₂.flatten [] (by simp) x hmem)
    · rw [mem_aggregateRecords_iff, mem_aggregateRecords_iff,
        aggregateRecords_find? _ _ hx, aggregateRecords_find? _ _ hx]
      have hpf : (arts₁.flatten.filter (fun r => r.url = x.url)).Perm
          (arts₂.flatten.filter (fun r => r.url = x.url)) :=
        (hperm.flatten).filter _
      have hk₂ : ((arts₂.flatten.filter (fun r => r.url = x.url)).map keyOf).Nodup :=
        ((hpf.map keyOf).nodup_iff).mp (hkeys x.url)
      rw [kept1_perm hpf hk₂]
  · intro rs u r₁ r₂ hu hfil hkeys
    rw [aggregateRecords_find? rs u hu, hfil]
    show some (keptFrom r₁ [r₂]) = some r₁
    rw [keptFrom, if_neg (by rw [better_of_keys_eq hkeys.symm]; simp)]
    rfl

/-! ## Report-artifact selection (`get_analysis_results_for_job`) -/

/-- An analysis-report artifact in `REPORTS_DIR`: file name, creation
time, and the parsed `analyses` list (`none` when opening or JSON-parsing
raises, which the loop skips with `continue`). -/
structure ReportFile where
  name : String
  ctime : Int
  content : Option (List AnalysisRecord)
deriving DecidableEq, Repr

/-- `filename.startswith(p)`. -/
def strStarts (p s : String) : Bool := startMatch p.data s.data

/-- `filename.endswith(p)`. -/
def strEnds (p s : String) : Bool := startMatch p.data.reverse s.data.reverse

/-- `filename.startswith(f"analysis_report_{job_id}") and
filename.endswith(".json")`. -/
def matchesJob (jobId : String) (f : ReportFile) : Bool :=
  strStarts ("analysis_report_" ++ jobId) f.name && strEnds ".json" f.name

/-- `filename.startswith("analysis_report_") and
filename.endswith(".json")`. -/
def isReportFile (f : ReportFile) : Bool :=
  strStarts "analysis_report_" f.name && strEnds ".json" f.name

/-- The files the aggregator settles on: the job-matching files, or — on a
complete miss — every analysis-report file in storage. -/
def selectReportFiles (jobId : String) (files : List ReportFile) : List ReportFile :=
  if (files.filter (matchesJob jobId)).isEmpty then files.filter isReportFile
  else files.filter (matchesJob jobId)

/-- Insertion step of the stable newest-first sort
(`analysis_files.sort(key=os.path.getctime, reverse=True)`): an earlier
list element goes before any equal-ctime later element. -/
def insertByCtimeDesc (f : ReportFile) : List ReportFile → List ReportFile
  | [] => [f]
  | g :: gs => if g.ctime ≤ f.ctime then f :: g :: gs else g :: insertByCtimeDesc f gs

/-- The stable descending-by-ctime sort. -/
def sortByCtimeDesc (files : List ReportFile) : List ReportFile :=
  files.foldr insertByCtimeDesc []

/-- The records one file contributes (a skipped unreadable file
contributes none). -/
def fileRecords (f : ReportFile) : List AnalysisRecord := f.content.getD []

/-- The files `get_analysis_results_for_job` iterates, in its processing
order. -/
def processedFiles (jobId : String) (files : List ReportFile) : List ReportFile :=
  sortByCtimeDesc (selectReportFiles jobId files)

/-- `get_analysis_results_for_job`: `None` when no artifact qualifies,
otherwise the aggregation of all records of the processed files in
processing order. -/
def getAnalysisResultsForJob (jobId : String) (files : List ReportFile) :
    Option (List AnalysisRecord) :=
  if (selectReportFiles jobId files).isEmpty then none
  else some (aggregateRecords ((processedFiles jobId files).flatMap fileRecords))

theorem startMatch_append_left :
    ∀ xs ys zs : List Char, startMatch (xs ++ ys) zs = true → startMatch xs zs = true := by
  intro xs
  induction xs with
  | nil => intro ys zs _; rfl
  | cons a as ih =>
    intro ys zs h
    cases zs with
    | nil => exact absurd h (by simp [startMatch])
    | cons b bs =>
      rw [List.cons_append, startMatch, Bool.and_eq_true] at h
      rw [startMatch, Bool.and_eq_true]
      exact ⟨h.1, ih ys bs h.2⟩

theorem isReportFile_of_matchesJob {jobId : String} {f : ReportFile}
    (h : matchesJob jobId f = true) : isReportFile f = true := by
  rw [matchesJob, Bool.and_eq_true] at h
  rw [isReportFile, Bool.and_eq_true]
  refine ⟨?_, h.2⟩
  have hdata : ("analysis_report_" ++ jobId).data =
      "analysis_report_".data ++ jobId.data := String.data_append _ _
  rw [strStarts, hdata] at h
  exact startMatch_append_left _ _ _ h.1

theorem insertByCtimeDesc_perm (f : ReportFile) :
    ∀ l : List ReportFile, (insertByCtimeDesc f l).Perm (f :: l) := by
  intro l
  induction l with
  | nil => exact List.Perm.refl _
  | cons g gs ih =>
    rw [insertByCtimeDesc]
    by_cases hle : g.ctime ≤ f.ctime
    · rw [if_pos hle]
    · rw [if_neg hle]
      exact (ih.cons g).trans (List.Perm.swap f g gs)

theorem sortByCtimeDesc_perm :
    ∀ l : List ReportFile, (sortByCtimeDesc l).Perm l := by
  intro l
  induction l with
  | nil => exact List.Perm.refl _
  | cons f fs ih =>
    show (insertByCtimeDesc f (sortByCtimeDesc fs)).Perm (f :: fs)
    exact (insertByCtimeDesc_perm f (sortByCtimeDesc fs)).trans (ih.cons f)

theorem mem_insertByCtimeDesc {f x : ReportFile} {l : List ReportFile}
    (h : x ∈ insertByCtimeDesc f l) : x = f ∨ x ∈ l :=
  List.mem_cons.mp ((insertByCtimeDesc_perm f l).mem_iff.mp h)

theorem insertByCtimeDesc_sorted {f : ReportFile} :
    ∀ {l : List ReportFile}, l.Pairwise (fun a b => b.ctime ≤ a.ctime) →
      (insertByCtimeDesc f l).Pairwise (fun a b => b.ctime ≤ a.ctime) := by
  intro l
  induction l with
  | nil => intro _; simp [insertByCtimeDesc]
  | cons g gs ih =>
    intro hp
    rw [insertByCtimeDesc]
    rcases List.pairwise_cons.mp hp with ⟨hg, hgs⟩
    by_cases hle : g.ctime ≤ f.ctime
    · rw [if_pos hle]
      refine List.pairwise_cons.mpr ⟨?_, hp⟩
      intro x hx
      rcases List.mem_cons.mp hx with rfl | hx
      · exact hle
      · exact le_trans (hg x hx) hle
    · rw [if_neg hle]
      refine List.pairwise_cons.mpr ⟨?_, ih hgs⟩
      intro x hx
      rcases mem_insertByCtimeDesc hx with rfl | hx
      · exact le_of_not_le hle
      · exact hg x hx

theorem sortByCtimeDesc_sorted :
    ∀ l : List ReportFile, (sortByCtimeDesc l).Pairwise (fun a b => b.ctime ≤ a.ctime) := by
  intro l
  induction l with
  | nil => simp [sortByCtimeDesc]
  | cons f fs ih => exact insertByCtimeDesc_sorted ih

/-- C8: the aggregator reads exactly the job-matching report artifacts
when any exists; with none it falls back to every analysis-report artifact
in storage; it returns `None` exactly when storage holds no analysis-report
artifact at all; and the processed order is newest-first by creation
time. -/
theorem c8_aggregate_reads_matching_or_all_newest_first
    (jobId : String) (files : List ReportFile) :
    (files.filter (matchesJob jobId) ≠ [] →
      (processedFiles jobId files).Perm (files.filter (matchesJob jobId))) ∧
    (files.filter (matchesJob jobId) = [] →
      (processedFiles jobId files).Perm (files.filter isReportFile)) ∧
    (getAnalysisResultsForJob jobId files = none ↔ files.filter isReportFile = []) ∧
    (processedFiles jobId files).Pairwise (fun a b => b.ctime ≤ a.ctime) := by
  have hsub : files.filter isReportFile = [] → files.filter (matchesJob jobId) = [] := by
    intro hrep
    rw [List.filter_eq_nil_iff] at hrep ⊢
    intro a ha hmat
    exact hrep a ha (isReportFile_of_matchesJob hmat)
  refine ⟨?_, ?_, ?_, ?_⟩
  · intro hne
    unfold processedFiles selectReportFiles
    rw [if_neg (by simpa [List.isEmpty_iff] using hne)]
    exact sortByCtimeDesc_perm _
  · intro heq
    unfold processedFiles selectReportFiles
    rw [if_pos (by simpa [List.isEmpty_iff] using heq)]
    exact sortByCtimeDesc_perm _
  · unfold getAnalysisResultsForJob selectReportFiles
    by_cases hmat : files.filter (matchesJob jobId) = []
    · have hb : (files.filter (matchesJob jobId)).isEmpty = true := by
        rw [hmat]; rfl
      rw [hb, if_pos rfl]
      by_cases hrep : files.filter isReportFile = []
      · have hb2 : (files.filter isReportFile).isEmpty = true := by
          rw [hrep]; rfl
        rw [hb2, if_pos rfl]
        simp [hrep]
      · have hb2 : (files.filter isReportFile).isEmpty = false := by
          cases hx : files.filter isReportFile with
          | nil => exact absurd hx hrep
          | cons a l => rfl
        rw [hb2, if_neg (by simp)]
        simp [hrep]
    · have hb : (files.filter (matchesJob jobId)).isEmpty = false := by
        cases hx : files.filter (matchesJob jobId) with
        | nil => exact absurd hx hmat
        | cons a l => rfl
      rw [hb, if_neg (by simp [hb])]
      constructor
      · intro h
        exact Option.noConfusion h
      · intro hrep
        exact absurd (hsub hrep) hmat
  · exact sortByCtimeDesc_sorted _

end Chhaya
